import Mathlib

/-!
Verification of the devapack version-maintenance scripts.

This file is a shallow embedding, in Lean 4, of the version pipeline of the
devaloop-labs/devapack repository:

* `scripts/version/bump.ts`  : `bumpVersion` (semantic-version bump);
* `scripts/version/fetch.ts` : `fetchVersion` (build-counter stamping);
* `scripts/version/sync.ts`  : `syncVersion` (manifest propagation, including
  the first-occurrence regex substitution on Cargo.toml);
* `scripts/postinstall.ts`   : the HTTP response handler of the binary download;
* `scripts/version/copy-to-binary.ts` : flag parsing and destination-directory
  resolution of the version-record relocator.

Strings are modelled as Lean `String` or `List Char`; JavaScript numbers that
hold version components or counters are modelled as `Nat`.  Filesystem and
network effects are made explicit: functions return the record or document
that the script would write, and environment-dependent primitives (the Node
`path.resolve`, `fs.existsSync`, `fs.statSync().isFile()` oracles) are fields
of an explicit environment structure.
-/

namespace Devapack

/-! ### Generic character-list scanners

`takeWhileCh p cs` returns the longest all-`p` head of `cs` together with the
remaining suffix, exactly like a greedy regex character class; `matchLit`
consumes a literal. -/

def takeWhileCh (p : Char → Bool) : List Char → List Char × List Char
  | [] => ([], [])
  | c :: cs =>
    if p c then
      let r := takeWhileCh p cs
      (c :: r.1, r.2)
    else ([], c :: cs)

def matchLit : List Char → List Char → Option (List Char)
  | [], cs => some cs
  | _ :: _, [] => none
  | l :: ls, c :: cs => if c = l then matchLit ls cs else none

theorem takeWhileCh_eq (p : Char → Bool) :
    ∀ (cs t r : List Char), takeWhileCh p cs = (t, r) →
      cs = t ++ r ∧ t.all p = true := by
  intro cs
  induction cs with
  | nil => intro t r h; simp [takeWhileCh] at h; simp [h.1, h.2]
  | cons c cs ih =>
    intro t r h
    by_cases hp : p c
    · simp only [takeWhileCh, hp, if_pos] at h
      rcases htr : takeWhileCh p cs with ⟨t', r'⟩
      rw [htr] at h
      cases h
      have := ih t' r' htr
      simp [this.1, this.2, hp]
    · simp only [takeWhileCh, hp, if_neg, Bool.false_eq_true, ite_false] at h
      cases h
      simp

theorem takeWhileCh_stops (p : Char → Bool) (c : Char) (hc : p c = false) :
    ∀ (t r : List Char), t.all p = true →
      takeWhileCh p (t ++ c :: r) = (t, c :: r) := by
  intro t
  induction t with
  | nil => intro r _; simp [takeWhileCh, hc]
  | cons x t ih =>
    intro r hall
    simp only [List.all_cons, Bool.and_eq_true] at hall
    simp [takeWhileCh, hall.1, ih r hall.2]

theorem takeWhileCh_all (p : Char → Bool) :
    ∀ (t : List Char), t.all p = true → takeWhileCh p t = (t, []) := by
  intro t
  induction t with
  | nil => intro _; simp [takeWhileCh]
  | cons x t ih =>
    intro hall
    simp only [List.all_cons, Bool.and_eq_true] at hall
    simp [takeWhileCh, hall.1, ih hall.2]

theorem matchLit_self : ∀ (ls cs : List Char), matchLit ls (ls ++ cs) = some cs := by
  intro ls
  induction ls with
  | nil => intro cs; rfl
  | cons l ls ih => intro cs; simp [matchLit, ih]

theorem matchLit_eq : ∀ (ls cs r : List Char), matchLit ls cs = some r → cs = ls ++ r := by
  intro ls
  induction ls with
  | nil => intro cs r h; simp [matchLit] at h; simp [h]
  | cons l ls ih =>
    intro cs r h
    cases cs with
    | nil => simp [matchLit] at h
    | cons c cs =>
      by_cases hc : c = l
      · subst hc
        simp only [matchLit, if_pos rfl] at h
        simp [ih cs r h]
      · simp [matchLit, hc] at h

/-- Splitting a list equation at a position known to fall inside the left part:
if `a ++ b = c ++ d` and `a` is at most as long as `c`, then `c` extends `a`. -/
theorem append_eq_split {a b c d : List Char} (h : a ++ b = c ++ d)
    (hl : a.length ≤ c.length) : ∃ m, c = a ++ m ∧ b = m ++ d := by
  induction a generalizing c with
  | nil => exact ⟨c, by simpa using h⟩
  | cons x a ih =>
    cases c with
    | nil => simp at hl
    | cons y c =>
      simp only [List.cons_append, List.cons.injEq] at h
      rcases h with ⟨rfl, h2⟩
      simp only [List.length_cons, Nat.succ_le_succ_iff] at hl
      rcases ih h2 (by simpa using hl) with ⟨m, hm1, hm2⟩
      exact ⟨m, by simp [hm1], hm2⟩

/-- Any list containing a double quote splits at its first double quote. -/
theorem exists_quote_split : ∀ (ys : List Char), '"' ∈ ys →
    ∃ u w, ys = u ++ '"' :: w ∧ u.all (fun ch => !(ch = '"')) = true := by
  intro ys
  induction ys with
  | nil => intro h; simp at h
  | cons c cs ih =>
    intro h
    by_cases hc : c = '"'
    · exact ⟨[], cs, by simp [hc], by simp⟩
    · have hmem : '"' ∈ cs := by
        rcases List.mem_cons.mp h with h1 | h1
        · exact absurd h1.symm hc
        · exact h1
      rcases ih hmem with ⟨u, w, hu, hall⟩
      exact ⟨c :: u, w, by simp [hu], by simp [hall, hc]⟩

theorem last_of_append_singleton {l m : List Char} {a b : Char}
    (h : l ++ [a] = m ++ [b]) : a = b := by
  have hlen : l.length = m.length := by
    have := congrArg List.length h
    simpa using this
  have := List.append_inj_right h (by simpa using hlen)
  simpa using this

/-! ### The version grammar

`bump.ts` validates the stored version against the regular expression
`^(\d+)\.(\d+)\.(\d+)(?:-([\w.]+))?$`.  Because the delimiters `.` and `-` are
not members of the character classes `\d` and `[\w.]` does not contain `"`,
greedy left-to-right scanning coincides with the backtracking semantics of the
regex, so the parser below is an exact model of a successful match: it returns
the three digit groups and the optional prerelease group. -/

def isWordDot (c : Char) : Bool := c.isAlphanum || c = '_' || c = '.'

def parseVersionCore (cs : List Char) :
    Option (List Char × List Char × List Char × Option (List Char)) :=
  let p1 := takeWhileCh Char.isDigit cs
  if p1.1.isEmpty then none
  else
    match p1.2 with
    | [] => none
    | c1 :: r2 =>
      if c1 = '.' then
        let p2 := takeWhileCh Char.isDigit r2
        if p2.1.isEmpty then none
        else
          match p2.2 with
          | [] => none
          | c2 :: r4 =>
            if c2 = '.' then
              let p3 := takeWhileCh Char.isDigit r4
              if p3.1.isEmpty then none
              else
                match p3.2 with
                | [] => some (p1.1, p2.1, p3.1, none)
                | c3 :: r6 =>
                  if c3 = '-' then
                    if !r6.isEmpty && r6.all isWordDot then
                      some (p1.1, p2.1, p3.1, some r6)
                    else none
                  else none
            else none
      else none

def parseVersion (s : String) :
    Option (List Char × List Char × List Char × Option (List Char)) :=
  parseVersionCore s.data

/-- JavaScript unary `+` on a string of decimal digits, as used by
`+major + 1` in `bump.ts`. -/
def digitsToNat (ds : List Char) : Nat :=
  ds.foldl (fun n c => n * 10 + (c.toNat - 48)) 0

/-- Decimal rendering of a natural number, the canonical form produced by
JavaScript template-string interpolation of an integer-valued number.  The
first argument is fuel, always instantiated with the number itself, which
bounds the number of divisions by ten. -/
def natToDigitsAux : Nat → Nat → List Char → List Char
  | 0, _, acc => acc
  | fuel + 1, n, acc =>
    if n = 0 then acc
    else natToDigitsAux fuel (n / 10) (Char.ofNat (48 + n % 10) :: acc)

def natToDigits (n : Nat) : List Char :=
  if n = 0 then ['0'] else natToDigitsAux n n []

def natRepr (n : Nat) : String := String.mk (natToDigits n)

theorem natToDigitsAux_all :
    ∀ (fuel n : Nat) (acc : List Char), acc.all Char.isDigit = true →
      (natToDigitsAux fuel n acc).all Char.isDigit = true := by
  intro fuel
  induction fuel with
  | zero => intro n acc hacc; simpa [natToDigitsAux] using hacc
  | succ fuel ih =>
    intro n acc hacc
    rw [natToDigitsAux]
    by_cases h0 : n = 0
    · simp [h0, hacc]
    · simp only [h0, ite_false]
      apply ih
      have hm : n % 10 < 10 := Nat.mod_lt _ (by norm_num)
      have hd : (Char.ofNat (48 + n % 10)).isDigit = true := by
        interval_cases h : (n % 10) <;> decide
      simp [hd, hacc]

theorem natToDigitsAux_length :
    ∀ (fuel n : Nat) (acc : List Char),
      acc.length ≤ (natToDigitsAux fuel n acc).length := by
  intro fuel
  induction fuel with
  | zero => intro n acc; simp [natToDigitsAux]
  | succ fuel ih =>
    intro n acc
    rw [natToDigitsAux]
    by_cases h0 : n = 0
    · simp [h0]
    · simp only [h0, ite_false]
      calc acc.length ≤ (Char.ofNat (48 + n % 10) :: acc).length := by simp
        _ ≤ _ := ih (n / 10) _

theorem natToDigits_all (n : Nat) : (natToDigits n).all Char.isDigit = true := by
  unfold natToDigits
  by_cases h0 : n = 0
  · simp [h0]
  · simp only [h0, ite_false]
    exact natToDigitsAux_all n n [] (by simp)

theorem natToDigits_ne_nil (n : Nat) : natToDigits n ≠ [] := by
  unfold natToDigits
  by_cases h0 : n = 0
  · simp [h0]
  · simp only [h0, ite_false]
    cases n with
    | zero => exact absurd rfl h0
    | succ m =>
      intro hnil
      rw [natToDigitsAux] at hnil
      simp only [Nat.succ_ne_zero, ite_false] at hnil
      have := natToDigitsAux_length m ((m + 1) / 10)
        (Char.ofNat (48 + (m + 1) % 10) :: [])
      rw [hnil] at this
      simp at this

/-- The trailing characters contributed by the optional prerelease group. -/
def preSuffix : Option (List Char) → List Char
  | none => []
  | some p => '-' :: p

/-- A canonical `digits.digits.digits` string parses with no prerelease. -/
theorem parseVersionCore_canonical (x y z : List Char)
    (hx : x.all Char.isDigit = true) (hx0 : x.isEmpty = false)
    (hy : y.all Char.isDigit = true) (hy0 : y.isEmpty = false)
    (hz : z.all Char.isDigit = true) (hz0 : z.isEmpty = false) :
    parseVersionCore (x ++ '.' :: (y ++ '.' :: z)) = some (x, y, z, none) := by
  have h1 := takeWhileCh_stops Char.isDigit '.' (by decide) x (y ++ '.' :: z) hx
  have h2 := takeWhileCh_stops Char.isDigit '.' (by decide) y z hy
  have h3 := takeWhileCh_all Char.isDigit z hz
  simp [parseVersionCore, h1, h2, h3, hx0, hy0, hz0]

/-- Soundness of the version parser: a successful parse exposes the exact
digit-group decomposition of the input. -/
theorem parseVersionCore_sound (cs a b c : List Char) (pre : Option (List Char))
    (h : parseVersionCore cs = some (a, b, c, pre)) :
    a.all Char.isDigit = true ∧ a ≠ [] ∧ b.all Char.isDigit = true ∧ b ≠ [] ∧
    c.all Char.isDigit = true ∧ c ≠ [] ∧
    cs = a ++ '.' :: (b ++ '.' :: (c ++ preSuffix pre)) ∧
    (∀ p, pre = some p → p ≠ [] ∧ p.all isWordDot = true) := by
  rcases hp1 : takeWhileCh Char.isDigit cs with ⟨a1, r1⟩
  have ha1 := takeWhileCh_eq Char.isDigit cs a1 r1 hp1
  simp only [parseVersionCore, hp1] at h
  cases he1 : a1.isEmpty with
  | true => simp [he1] at h
  | false =>
  simp only [he1, Bool.false_eq_true, ite_false] at h
  cases r1 with
  | nil => simp at h
  | cons c1 r2 =>
  by_cases hc1 : c1 = '.'
  case neg => simp [hc1] at h
  subst hc1
  simp only [if_pos rfl] at h
  rcases hp2 : takeWhileCh Char.isDigit r2 with ⟨b1, r3⟩
  have hb1 := takeWhileCh_eq Char.isDigit r2 b1 r3 hp2
  simp only [hp2] at h
  cases he2 : b1.isEmpty with
  | true => simp [he2] at h
  | false =>
  simp only [he2, Bool.false_eq_true, ite_false] at h
  cases r3 with
  | nil => simp at h
  | cons c2 r4 =>
  by_cases hc2 : c2 = '.'
  case neg => simp [hc2] at h
  subst hc2
  simp only [if_pos rfl] at h
  rcases hp3 : takeWhileCh Char.isDigit r4 with ⟨d1, r5⟩
  have hd1 := takeWhileCh_eq Char.isDigit r4 d1 r5 hp3
  simp only [hp3] at h
  cases he3 : d1.isEmpty with
  | true => simp [he3] at h
  | false =>
  simp only [he3, Bool.false_eq_true, ite_false] at h
  cases r5 with
  | nil =>
    simp only [Option.some.injEq, Prod.mk.injEq] at h
    rcases h with ⟨rfl, rfl, rfl, rfl⟩
    refine ⟨ha1.2, by simpa using he1, hb1.2, by simpa using he2,
      hd1.2, by simpa using he3, ?_, by simp⟩
    simp [ha1.1, hb1.1, hd1.1, preSuffix]
  | cons c3 r6 =>
    by_cases hc3 : c3 = '-'
    case neg => simp [hc3] at h
    subst hc3
    simp only [if_pos rfl] at h
    cases he4 : (!r6.isEmpty && r6.all isWordDot) with
    | false => simp [he4] at h
    | true =>
      simp only [he4, ite_true, Option.some.injEq, Prod.mk.injEq] at h
      rcases h with ⟨rfl, rfl, rfl, rfl⟩
      simp only [Bool.and_eq_true, Bool.not_eq_true'] at he4
      refine ⟨ha1.2, by simpa using he1, hb1.2, by simpa using he2,
        hd1.2, by simpa using he3, ?_, ?_⟩
      · simp [ha1.1, hb1.1, hd1.1, preSuffix]
      · intro p hp
        cases hp
        exact ⟨by simpa using he4.1, he4.2⟩

theorem string_data_append (s t : String) : (s ++ t).data = s.data ++ t.data := by
  cases s; cases t; rfl

/-! ### The canonical version record and `bumpVersion` (scripts/version/bump.ts)

`project-version.json` holds the version string, an optional build counter and
an optional last-commit hash.  `bumpVersion` validates the stored version
against the grammar, then checks the bump kind, computes the next version with
JavaScript numeric coercion of the matched digit groups, writes it back and
returns it.  The four outcomes of the script are made explicit: a thrown
invalid-format error, the two `process.exit(1)` paths, and the successful
write-and-return. -/

structure VersionRecord where
  version : String
  build : Option Nat
  lastCommit : Option String
deriving DecidableEq

inductive BumpResult where
  /-- The record as written back to disk, and the returned next version. -/
  | ok (written : VersionRecord) (nextVersion : String)
  /-- The thrown `Invalid version format in project-version.json` error. -/
  | invalidFormat
  /-- `process.exit(1)` after the missing-bump-type message. -/
  | exitNoType
  /-- `process.exit(1)` after the unrecognized-bump-type message. -/
  | exitBadType
deriving DecidableEq

def bumpVersion (bumpType : String) (data : VersionRecord) : BumpResult :=
  match parseVersion data.version with
  | none => .invalidFormat
  | some (major, minor, patch, _pre) =>
    if bumpType = "" then .exitNoType
    else if bumpType = "major" then
      let nv := natRepr (digitsToNat major + 1) ++ ".0.0"
      .ok { data with version := nv } nv
    else if bumpType = "minor" then
      let nv := String.mk major ++ "." ++ natRepr (digitsToNat minor + 1) ++ ".0"
      .ok { data with version := nv } nv
    else if bumpType = "patch" then
      let nv := String.mk major ++ "." ++ String.mk minor ++ "." ++
        natRepr (digitsToNat patch + 1)
      .ok { data with version := nv } nv
    else .exitBadType

/-- The `fs.writeFileSync` effect of `bumpVersion`: the record written to the
version file, or `none` when the script fails before reaching the write. -/
def bumpWrite : BumpResult → Option VersionRecord
  | .ok written _ => some written
  | _ => none

/-! ### `fetchVersion` (scripts/version/fetch.ts)

The stamping script sets `data.build = (data.build || 0) + 1`, then attempts
`git rev-parse HEAD`; on success it stores the commit hash, on failure it only
warns and leaves `lastCommit` untouched.  The git environment is modelled by
the optional commit string. -/

/-- JavaScript `data.build || 0` for an optional non-negative counter. -/
def buildOrZero : Option Nat → Nat
  | none => 0
  | some n => n

def fetchVersion (gitHead : Option String) (data : VersionRecord) : VersionRecord :=
  let data1 := { data with build := some (buildOrZero data.build + 1) }
  match gitHead with
  | some commit => { data1 with lastCommit := some commit }
  | none => data1

/-! ### Manifest synchronization (scripts/version/sync.ts)

`syncVersion` copies the record's version into `package.json` by structured
rewrite, and into `Cargo.toml` by
`cargoToml.replace(/(version\s*=\s*")[^"]*(")/, prefixGroup ++ version ++ quote)`,
that is: find the leftmost occurrence of a `version = "..."` assignment and
splice the new version into the value span between the quotes, leaving every
other byte alone.  `tryMatchAt` attempts the (greedy) pattern at one position;
the scanners below try it at every position from the left, exactly like the
regex engine. -/

/-- JavaScript `\s` restricted to the ASCII whitespace characters. -/
def isJsSpace (c : Char) : Bool :=
  c = ' ' || c = '\t' || c = '\n' || c = '\r' ||
  c = Char.ofNat 11 || c = Char.ofNat 12

def versionKey : List Char := ['v', 'e', 'r', 's', 'i', 'o', 'n']

/-- One attempt of `(version\s*=\s*")[^"]*(")` at the head of `cs`.  On success
it returns the text of the first capture group (key, spacing, equals sign and
opening quote), the value span, and the suffix after the closing quote. -/
def tryMatchAt (cs : List Char) : Option (List Char × List Char × List Char) :=
  match matchLit versionKey cs with
  | none => none
  | some r1 =>
    let q1 := takeWhileCh isJsSpace r1
    match q1.2 with
    | [] => none
    | c3 :: r3 =>
      if c3 = '=' then
        let q2 := takeWhileCh isJsSpace r3
        match q2.2 with
        | [] => none
        | c4 :: r5 =>
          if c4 = '"' then
            let q3 := takeWhileCh (fun ch => !(ch = '"')) r5
            match q3.2 with
            | [] => none
            | c5 :: r7 =>
              if c5 = '"' then
                some (versionKey ++ q1.1 ++ '=' :: (q2.1 ++ ['"']), q3.1, r7)
              else none
          else none
      else none

/-- `String.prototype.replace` with the pattern above and the replacement
`$1` ++ version ++ `$2`: splice at the leftmost match, or return the document
unchanged when there is no match. -/
def replaceVersionValue (v : List Char) : List Char → List Char
  | [] => []
  | c :: cs' =>
    match tryMatchAt (c :: cs') with
    | some (g1, _, rest) => g1 ++ v ++ '"' :: rest
    | none => c :: replaceVersionValue v cs'

/-- The value span of the leftmost `version = "..."` assignment of a document,
when one exists. -/
def firstVersionValue : List Char → Option (List Char)
  | [] => none
  | c :: cs' =>
    match tryMatchAt (c :: cs') with
    | some (_, val, _) => some val
    | none => firstVersionValue cs'

/-- The leftmost match, decomposed: unmatched scan prefix, first capture
group, value span, and suffix after the closing quote. -/
def findFirstMatch : List Char → Option (List Char × List Char × List Char × List Char)
  | [] => none
  | c :: cs' =>
    match tryMatchAt (c :: cs') with
    | some (g1, val, rest) => some ([], g1, val, rest)
    | none =>
      match findFirstMatch cs' with
      | some (pre, g1, val, rest) => some (c :: pre, g1, val, rest)
      | none => none

/-- The structured (`package.json`) dependent manifest: its version field and
the other fields, which a parse-set-serialize rewrite carries over. -/
structure PkgJson where
  version : String
  otherFields : List (String × String)
deriving DecidableEq

/-- The two dependent manifests written by `syncVersion`. -/
structure ProjectManifests where
  pkg : PkgJson
  cargo : List Char
deriving DecidableEq

def syncVersion (versionString : String) (m : ProjectManifests) : ProjectManifests :=
  { pkg := { m.pkg with version := versionString },
    cargo := replaceVersionValue versionString.data m.cargo }

/-! ### One-step unfolding of the scanners -/

theorem tryMatchAt_nil : tryMatchAt [] = none := rfl

theorem replaceVersionValue_hit (v cs g1 val rest : List Char)
    (h : tryMatchAt cs = some (g1, val, rest)) :
    replaceVersionValue v cs = g1 ++ v ++ '"' :: rest := by
  cases cs with
  | nil => rw [tryMatchAt_nil] at h; cases h
  | cons c cs' => simp only [replaceVersionValue]; rw [h]

theorem replaceVersionValue_miss (v : List Char) (c : Char) (cs' : List Char)
    (h : tryMatchAt (c :: cs') = none) :
    replaceVersionValue v (c :: cs') = c :: replaceVersionValue v cs' := by
  simp only [replaceVersionValue]
  rw [h]

theorem firstVersionValue_hit (cs g1 val rest : List Char)
    (h : tryMatchAt cs = some (g1, val, rest)) :
    firstVersionValue cs = some val := by
  cases cs with
  | nil => rw [tryMatchAt_nil] at h; cases h
  | cons c cs' => simp only [firstVersionValue]; rw [h]

theorem firstVersionValue_miss (c : Char) (cs' : List Char)
    (h : tryMatchAt (c :: cs') = none) :
    firstVersionValue (c :: cs') = firstVersionValue cs' := by
  simp only [firstVersionValue]
  rw [h]

theorem findFirstMatch_hit (cs g1 val rest : List Char)
    (h : tryMatchAt cs = some (g1, val, rest)) :
    findFirstMatch cs = some ([], g1, val, rest) := by
  cases cs with
  | nil => rw [tryMatchAt_nil] at h; cases h
  | cons c cs' => simp only [findFirstMatch]; rw [h]

theorem findFirstMatch_miss (c : Char) (cs' : List Char)
    (h : tryMatchAt (c :: cs') = none) :
    findFirstMatch (c :: cs') =
      match findFirstMatch cs' with
      | some (pre, g1, val, rest) => some (c :: pre, g1, val, rest)
      | none => none := by
  simp only [findFirstMatch]
  rw [h]

/-! ### Characterizing a pattern match -/

/-- The shape of the first capture group of the Cargo pattern: the key
literal, optional spacing, the equals sign, optional spacing and the opening
quote. -/
def IsHeader (g1 : List Char) : Prop :=
  ∃ w1 w2, w1.all isJsSpace = true ∧ w2.all isJsSpace = true ∧
    g1 = versionKey ++ w1 ++ '=' :: (w2 ++ ['"'])

theorem tryMatchAt_sound (cs g1 val rest : List Char)
    (h : tryMatchAt cs = some (g1, val, rest)) :
    IsHeader g1 ∧ val.all (fun ch => !(ch = '"')) = true ∧
    cs = g1 ++ val ++ '"' :: rest := by
  rcases hm : matchLit versionKey cs with _ | r1
  · simp [tryMatchAt, hm] at h
  have hcs := matchLit_eq versionKey cs r1 hm
  simp only [tryMatchAt, hm] at h
  rcases hq1 : takeWhileCh isJsSpace r1 with ⟨w1, r2⟩
  have hw1 := takeWhileCh_eq isJsSpace r1 w1 r2 hq1
  simp only [hq1] at h
  cases r2 with
  | nil => simp at h
  | cons c3 r3 =>
  by_cases hc3 : c3 = '='
  case neg => simp [hc3] at h
  subst hc3
  simp only [if_pos rfl] at h
  rcases hq2 : takeWhileCh isJsSpace r3 with ⟨w2, r4⟩
  have hw2 := takeWhileCh_eq isJsSpace r3 w2 r4 hq2
  simp only [hq2] at h
  cases r4 with
  | nil => simp at h
  | cons c4 r5 =>
  by_cases hc4 : c4 = '"'
  case neg => simp [hc4] at h
  subst hc4
  simp only [if_pos rfl] at h
  rcases hq3 : takeWhileCh (fun ch => !(ch = '"')) r5 with ⟨vl, r6⟩
  have hvl := takeWhileCh_eq (fun ch => !(ch = '"')) r5 vl r6 hq3
  simp only [hq3] at h
  cases r6 with
  | nil => simp at h
  | cons c5 r7 =>
  by_cases hc5 : c5 = '"'
  case neg => simp [hc5] at h
  subst hc5
  simp only [if_pos rfl, Option.some.injEq, Prod.mk.injEq] at h
  rcases h with ⟨rfl, rfl, rfl⟩
  refine ⟨⟨w1, w2, hw1.2, hw2.2, rfl⟩, hvl.2, ?_⟩
  rw [hcs, hw1.1, hw2.1, hvl.1]
  simp

theorem tryMatchAt_of_shape (w1 w2 val rest : List Char)
    (hw1 : w1.all isJsSpace = true) (hw2 : w2.all isJsSpace = true)
    (hval : val.all (fun ch => !(ch = '"')) = true) :
    tryMatchAt (versionKey ++ w1 ++ '=' :: (w2 ++ '"' :: (val ++ '"' :: rest))) =
      some (versionKey ++ w1 ++ '=' :: (w2 ++ ['"']), val, rest) := by
  have hm : matchLit versionKey
      (versionKey ++ (w1 ++ '=' :: (w2 ++ '"' :: (val ++ '"' :: rest)))) =
      some (w1 ++ '=' :: (w2 ++ '"' :: (val ++ '"' :: rest))) :=
    matchLit_self versionKey _
  have h1 : takeWhileCh isJsSpace (w1 ++ '=' :: (w2 ++ '"' :: (val ++ '"' :: rest))) =
      (w1, '=' :: (w2 ++ '"' :: (val ++ '"' :: rest))) :=
    takeWhileCh_stops isJsSpace '=' (by decide) w1 _ hw1
  have h2 : takeWhileCh isJsSpace (w2 ++ '"' :: (val ++ '"' :: rest)) =
      (w2, '"' :: (val ++ '"' :: rest)) :=
    takeWhileCh_stops isJsSpace '"' (by decide) w2 _ hw2
  have h3 : takeWhileCh (fun ch => !(ch = '"')) (val ++ '"' :: rest) =
      (val, '"' :: rest) :=
    takeWhileCh_stops (fun ch => !(ch = '"')) '"' (by decide) val _ hval
  simp [tryMatchAt, hm, h1, h2, h3]

theorem isHeader_count (g1 : List Char) (h : IsHeader g1) : g1.count '"' = 1 := by
  rcases h with ⟨w1, w2, hw1, hw2, rfl⟩
  have m1 : '"' ∉ w1 := by
    intro hmem
    have := (List.all_eq_true.mp hw1) _ hmem
    simp [isJsSpace] at this
  have m2 : '"' ∉ w2 := by
    intro hmem
    have := (List.all_eq_true.mp hw2) _ hmem
    simp [isJsSpace] at this
  simp [List.count_append, List.count_cons, List.count_eq_zero.mpr m1,
    List.count_eq_zero.mpr m2, versionKey, List.count_eq_zero]

theorem isHeader_quote_mem (g1 : List Char) (h : IsHeader g1) : '"' ∈ g1 := by
  rcases h with ⟨w1, w2, _, _, rfl⟩
  simp

theorem isHeader_ends_quote (g1 : List Char) (h : IsHeader g1) :
    ∃ l, g1 = l ++ ['"'] := by
  rcases h with ⟨w1, w2, _, _, rfl⟩
  exact ⟨versionKey ++ w1 ++ '=' :: w2, by simp⟩

theorem exists_concat_of_ne_nil {m : List Char} (h : m ≠ []) :
    ∃ m' c, m = m' ++ [c] := by
  induction m with
  | nil => exact absurd rfl h
  | cons x m ih =>
    cases m with
    | nil => exact ⟨[], x, rfl⟩
    | cons y m' =>
      rcases ih (by simp) with ⟨l, c, hl⟩
      exact ⟨x :: l, c, by simp [hl]⟩

/-- The crux of the frame argument for the pattern substitution: whether the
pattern matches at a given position does not depend on the content of a
later, quote-delimited value span.  A position that matches the document
carrying value `a` also matches the document carrying value `b`. -/
theorem tryMatchAt_swap (xs g1 a b rest : List Char)
    (hg : IsHeader g1)
    (hsome : (tryMatchAt (xs ++ g1 ++ a ++ '"' :: rest)).isSome = true) :
    (tryMatchAt (xs ++ g1 ++ b ++ '"' :: rest)).isSome = true := by
  rcases Option.isSome_iff_exists.mp hsome with ⟨⟨g1', val', rest'⟩, hm⟩
  rcases tryMatchAt_sound _ _ _ _ hm with ⟨hg', _, heq⟩
  simp only [List.append_assoc] at heq
  by_cases hlen : g1'.length ≤ (xs ++ g1).length
  · -- the matching header ends inside the region shared by both documents
    have heq' : g1' ++ (val' ++ '"' :: rest') = (xs ++ g1) ++ (a ++ '"' :: rest) := by
      simp only [List.append_assoc]
      exact heq.symm
    rcases append_eq_split heq' hlen with ⟨m, hm1, _⟩
    have hquote : '"' ∈ m ++ (b ++ '"' :: rest) := by simp
    rcases exists_quote_split _ hquote with ⟨u, w, huw, hu⟩
    rcases hg' with ⟨w1', w2', hw1', hw2', hshape⟩
    have hnew : xs ++ g1 ++ b ++ '"' :: rest =
        versionKey ++ w1' ++ '=' :: (w2' ++ '"' :: (u ++ '"' :: w)) := by
      calc xs ++ g1 ++ b ++ '"' :: rest
          = g1' ++ (m ++ (b ++ '"' :: rest)) := by
            rw [hm1]
            simp [List.append_assoc]
        _ = g1' ++ (u ++ '"' :: w) := by rw [huw]
        _ = versionKey ++ w1' ++ '=' :: (w2' ++ '"' :: (u ++ '"' :: w)) := by
            rw [hshape]
            simp [List.append_assoc]
    rw [hnew, tryMatchAt_of_shape w1' w2' u w hw1' hw2' hu]
    rfl
  · -- impossible: the matching header would have to contain a second quote
    exfalso
    push_neg at hlen
    have heq' : (xs ++ g1) ++ (a ++ '"' :: rest) = g1' ++ (val' ++ '"' :: rest') := by
      simp only [List.append_assoc]
      exact heq
    rcases append_eq_split heq' (Nat.le_of_lt hlen) with ⟨m, hm1, _⟩
    have hmne : m ≠ [] := by
      intro h0
      rw [h0, List.append_nil] at hm1
      rw [hm1] at hlen
      exact Nat.lt_irrefl _ hlen
    rcases exists_concat_of_ne_nil hmne with ⟨m', cl, rfl⟩
    rcases isHeader_ends_quote g1' hg' with ⟨l, hl⟩
    have hstep : ((xs ++ g1) ++ m') ++ [cl] = l ++ ['"'] := by
      rw [List.append_assoc (xs ++ g1) m' [cl], ← hm1, hl]
    have hcl : cl = '"' := last_of_append_singleton hstep
    have hcount1 : g1'.count '"' = 1 := isHeader_count g1' hg'
    have hmemg : '"' ∈ xs ++ g1 := List.mem_append_right xs (isHeader_quote_mem g1 hg)
    have hc2 : 2 ≤ g1'.count '"' := by
      rw [hm1, List.count_append]
      have h1 : 1 ≤ (xs ++ g1).count '"' := List.count_pos_iff.mpr hmemg
      have h2 : 1 ≤ (m' ++ [cl]).count '"' := by
        apply List.count_pos_iff.mpr
        rw [hcl]
        simp
      omega
    omega

/-- Decomposition at the leftmost match, and the frame effect of the
substitution: the replaced document keeps every byte outside the value span. -/
theorem findFirstMatch_sound (v : List Char) :
    ∀ cs pre g1 val rest, findFirstMatch cs = some (pre, g1, val, rest) →
      cs = pre ++ g1 ++ val ++ '"' :: rest ∧ IsHeader g1 ∧
      val.all (fun ch => !(ch = '"')) = true ∧
      replaceVersionValue v cs = pre ++ g1 ++ v ++ '"' :: rest := by
  intro cs
  induction cs with
  | nil => intro pre g1 val rest h; simp [findFirstMatch] at h
  | cons c cs' ih =>
    intro pre g1 val rest h
    rcases ht : tryMatchAt (c :: cs') with _ | ⟨g1t, valt, restt⟩
    · rw [findFirstMatch_miss c cs' ht] at h
      rcases hf : findFirstMatch cs' with _ | ⟨⟨pre', g1', val', rest'⟩⟩
      · rw [hf] at h; cases h
      · rw [hf] at h
        simp only [Option.some.injEq, Prod.mk.injEq] at h
        obtain ⟨rfl, rfl, rfl, rfl⟩ := h
        rcases ih pre' g1' val' rest' hf with ⟨hdec, hhdr, hqf, hrep⟩
        refine ⟨by simp [hdec], hhdr, hqf, ?_⟩
        rw [replaceVersionValue_miss v c cs' ht, hrep]
        simp
    · rw [findFirstMatch_hit (c :: cs') g1t valt restt ht] at h
      simp only [Option.some.injEq, Prod.mk.injEq] at h
      obtain ⟨rfl, rfl, rfl, rfl⟩ := h
      rcases tryMatchAt_sound _ _ _ _ ht with ⟨hhdr, hqf, hdec⟩
      exact ⟨by simpa using hdec, hhdr, hqf,
        by simpa using replaceVersionValue_hit v (c :: cs') g1t valt restt ht⟩

/-- When the pattern occurs nowhere, the substitution is the identity. -/
theorem replaceVersionValue_id (v : List Char) :
    ∀ cs, findFirstMatch cs = none → replaceVersionValue v cs = cs := by
  intro cs
  induction cs with
  | nil => intro _; rfl
  | cons c cs' ih =>
    intro h
    rcases ht : tryMatchAt (c :: cs') with _ | ⟨g1t, valt, restt⟩
    · rw [findFirstMatch_miss c cs' ht] at h
      rcases hf : findFirstMatch cs' with _ | x
      · rw [replaceVersionValue_miss v c cs' ht, ih hf]
      · rw [hf] at h
        rcases x with ⟨pre', g1', val', rest'⟩
        cases h
    · rw [findFirstMatch_hit (c :: cs') g1t valt restt ht] at h
      cases h

/-- When the pattern occurs nowhere, no assignment value can be read back. -/
theorem firstVersionValue_of_none :
    ∀ cs, findFirstMatch cs = none → firstVersionValue cs = none := by
  intro cs
  induction cs with
  | nil => intro _; rfl
  | cons c cs' ih =>
    intro h
    rcases ht : tryMatchAt (c :: cs') with _ | ⟨g1t, valt, restt⟩
    · rw [findFirstMatch_miss c cs' ht] at h
      rcases hf : findFirstMatch cs' with _ | x
      · rw [firstVersionValue_miss c cs' ht, ih hf]
      · rw [hf] at h
        rcases x with ⟨pre', g1', val', rest'⟩
        cases h
    · rw [findFirstMatch_hit (c :: cs') g1t valt restt ht] at h
      cases h

/-- Reading the first assignment value back out of the substituted document
yields exactly the substituted version: the first match of the new document
sits where the first match of the old document sat. -/
theorem firstVersionValue_replace (v : List Char) :
    ∀ cs pre g1 val rest, findFirstMatch cs = some (pre, g1, val, rest) →
      v.all (fun ch => !(ch = '"')) = true →
      firstVersionValue (replaceVersionValue v cs) = some v := by
  intro cs
  induction cs with
  | nil => intro pre g1 val rest h _; simp [findFirstMatch] at h
  | cons c cs' ih =>
    intro pre g1 val rest h hv
    rcases ht : tryMatchAt (c :: cs') with _ | ⟨g1t, valt, restt⟩
    · rw [findFirstMatch_miss c cs' ht] at h
      rcases hf : findFirstMatch cs' with _ | ⟨⟨pre', g1', val', rest'⟩⟩
      · rw [hf] at h; cases h
      · rw [hf] at h
        simp only [Option.some.injEq, Prod.mk.injEq] at h
        obtain ⟨rfl, rfl, rfl, rfl⟩ := h
        rcases findFirstMatch_sound v cs' pre' g1' val' rest' hf with ⟨hdec, hhdr, _, hrep⟩
        rw [replaceVersionValue_miss v c cs' ht]
        -- the old position still fails to match after the value swap
        have hnone : tryMatchAt (c :: replaceVersionValue v cs') = none := by
          rcases hs : tryMatchAt (c :: replaceVersionValue v cs') with _ | y
          · rfl
          · exfalso
            have hx : (tryMatchAt ((c :: pre') ++ g1' ++ v ++ '"' :: rest')).isSome = true := by
              have hsh : c :: replaceVersionValue v cs' =
                  (c :: pre') ++ g1' ++ v ++ '"' :: rest' := by
                rw [hrep]; simp
              rw [← hsh, hs]
              rfl
            have hy := tryMatchAt_swap (c :: pre') g1' v val' rest' hhdr hx
            have hsh2 : (c :: pre') ++ g1' ++ val' ++ '"' :: rest' = c :: cs' := by
              rw [hdec]; simp
            rw [hsh2, ht] at hy
            cases hy
        rw [firstVersionValue_miss c (replaceVersionValue v cs') hnone]
        exact ih pre' g1' val' rest' hf hv
    · rw [findFirstMatch_hit (c :: cs') g1t valt restt ht] at h
      simp only [Option.some.injEq, Prod.mk.injEq] at h
      obtain ⟨rfl, rfl, rfl, rfl⟩ := h
      rcases tryMatchAt_sound _ _ _ _ ht with ⟨hhdr, _, _⟩
      rw [replaceVersionValue_hit v (c :: cs') g1t valt restt ht]
      rcases hhdr with ⟨w1, w2, hw1, hw2, hshape⟩
      have hform : g1t ++ v ++ '"' :: restt =
          versionKey ++ w1 ++ '=' :: (w2 ++ '"' :: (v ++ '"' :: restt)) := by
        rw [hshape]
        simp [List.append_assoc]
      rw [hform]
      rw [firstVersionValue_hit _ _ v restt (tryMatchAt_of_shape w1 w2 v restt hw1 hw2 hv)]

/-! ### Binary provisioning (scripts/postinstall.ts)

The `https.get` callback inspects `res.statusCode`: a 404 logs a warning and
skips, any other status different from 200 logs an error and skips, and a 200
streams the response into the destination file.  The error event handler logs
and continues.  No branch throws or calls `process.exit`, which the explicit
`processFailed` field records branch by branch. -/

inductive LogLevel where
  | info
  | warn
  | error
deriving DecidableEq

/-- The observable outcome of one download attempt: the path written (if
any), the console line emitted, and whether the process was failed. -/
structure DownloadOutcome where
  written : Option String
  log : LogLevel × String
  processFailed : Bool
deriving DecidableEq

/-- The response callback of `https.get` in `postinstall.ts`. -/
def postinstallOnResponse (statusCode : Int) (binaryName dest : String) :
    DownloadOutcome :=
  if statusCode = 404 then
    { written := none,
      log := (.warn, "Asset not found (HTTP 404). Skipping binary download."),
      processFailed := false }
  else if statusCode ≠ 200 then
    { written := none,
      log := (.error, "Failed (HTTP " ++ toString statusCode ++ "). Skipping binary download."),
      processFailed := false }
  else
    { written := some dest,
      log := (.info, "Downloaded " ++ binaryName ++ " to " ++ dest),
      processFailed := false }

/-- The error event handler of `https.get` in `postinstall.ts`. -/
def postinstallOnError (msg : String) : DownloadOutcome :=
  { written := none,
    log := (.error, "Error: " ++ msg ++ ". Skipping binary download."),
    processFailed := false }

/-- The release download URL built by `postinstall.ts`. -/
def downloadUrl (versionString binaryName : String) : String :=
  "https://github.com/devaloop-labs/devapack/releases/download/v" ++
    versionString ++ "/" ++ binaryName

/-- The platform switch of `postinstall.ts`: the artifact name per platform,
empty for unsupported platforms. -/
def platformBinaryName (platform : String) : String :=
  if platform = "win32" then "devapack-x86_64-pc-windows-msvc.exe"
  else if platform = "darwin" then "devapack-x86_64-apple-darwin"
  else if platform = "linux" then "devapack-x86_64-unknown-linux-gnu"
  else ""

/-- An HTTP 2xx success status, used to state the spec claim about when the
artifact is written. -/
def isHttp2xx (s : Int) : Bool := 200 ≤ s && s ≤ 299

/-! ### The relocator (scripts/version/copy-to-binary.ts)

The script parses `--source`, `--binary`, `--out-dir`, `--help`/`-h` flags,
resolves the source record path, resolves the destination directory from the
flags, and copies `project-version.json` there.  Exit codes: 0 on success (or
help), 1 on an unknown flag, 2 when the source record is missing, 3 when no
destination directory was resolved, 4 when the copy throws.  The Node `path`
functions `dirname` and `extname` are modelled concretely with the posix
algorithms; `path.resolve` (which folds in the process working directory) and
the filesystem oracles are environment parameters. -/

/-- Scan of `path.posix.dirname`, over the reversed character list, tracking
the current index; returns the index of the slash that terminates the parent
prefix, if the loop finds one before reaching index 0. -/
def dirnameLoop : List Char → Nat → Bool → Option Nat
  | [], _, _ => none
  | c :: rest, i, matchedSlash =>
    if i = 0 then none
    else if c = '/' then
      if matchedSlash then dirnameLoop rest (i - 1) matchedSlash
      else some i
    else dirnameLoop rest (i - 1) false

def posixDirname (p : String) : String :=
  match p.data with
  | [] => "."
  | c0 :: _ =>
    let hasRoot := c0 = '/'
    match dirnameLoop p.data.reverse (p.data.length - 1) true with
    | none => if hasRoot then "/" else "."
    | some e =>
      if hasRoot && e = 1 then "//" else String.mk (p.data.take e)

/-- The scan state of `path.posix.extname`: index of the rightmost dot,
start of the basename, one past the last non-slash character, whether only
trailing slashes have been seen, and the Node `preDotState` flag. -/
structure ExtnameState where
  startDot : Option Nat
  startPart : Nat
  endIdx : Option Nat
  matchedSlash : Bool
  preDotState : Int
deriving DecidableEq

def extnameLoop : List Char → Nat → ExtnameState → ExtnameState
  | [], _, st => st
  | c :: rest, i, st =>
    if c = '/' then
      if st.matchedSlash then extnameLoop rest (i - 1) st
      else { st with startPart := i + 1 }
    else
      let st1 :=
        if st.endIdx = none then
          { st with matchedSlash := false, endIdx := some (i + 1) }
        else st
      let st2 :=
        if c = '.' then
          match st1.startDot with
          | none => { st1 with startDot := some i }
          | some _ =>
            if st1.preDotState ≠ 1 then { st1 with preDotState := 1 } else st1
        else
          match st1.startDot with
          | some _ => { st1 with preDotState := -1 }
          | none => st1
      extnameLoop rest (i - 1) st2

def posixExtname (p : String) : String :=
  let cs := p.data
  let st := extnameLoop cs.reverse (cs.length - 1) ⟨none, 0, none, true, 0⟩
  match st.startDot, st.endIdx with
  | some sd, some e =>
    if st.preDotState = 0 then ""
    else if st.preDotState = 1 ∧ sd = e - 1 ∧ sd = st.startPart + 1 then ""
    else String.mk ((cs.take e).drop sd)
  | _, _ => ""

/-- The ambient process and filesystem of the relocator: `path.resolve`
against the working directory, the working directory itself, existence and
regular-file oracles, and the default source location next to the script. -/
structure RelocEnv where
  resolve : String → String
  cwd : String
  pathExists : String → Bool
  isFile : String → Bool
  defaultSource : String

/-- JavaScript truthiness of a `string | undefined` variable. -/
def jsTruthy : Option String → Bool
  | none => false
  | some s => !s.isEmpty

/-- The `destDir` resolution of `copy-to-binary.ts`, `null` modelled as
`none`.  Every branch of the source assigns a directory. -/
def destDirResolve (env : RelocEnv) (binaryArg outDirArg : Option String) :
    Option String :=
  if jsTruthy binaryArg then
    let binPath := env.resolve (binaryArg.getD "")
    if env.pathExists binPath && env.isFile binPath then
      some (posixDirname binPath)
    else
      let ext := posixExtname binPath
      if !ext.isEmpty then some (posixDirname binPath)
      else some binPath
  else if jsTruthy outDirArg then some (env.resolve (outDirArg.getD ""))
  else some env.cwd

/-- The outcome of the relocator's flag loop: the three collected flag
values, or an early exit (help, or unknown argument with exit code 1). -/
inductive ArgScan where
  | ok (sourceArg binaryArg outDirArg : Option String)
  | helpExit
  | unknownExit (arg : String)
deriving DecidableEq

def parseArgvLoop : List String → Option String → Option String → Option String → ArgScan
  | [], s, b, o => .ok s b o
  | a :: rest, s, b, o =>
    if a = "--source" then
      match rest with
      | v :: rest' => parseArgvLoop rest' (some v) b o
      | [] => .ok none b o
    else if a = "--binary" then
      match rest with
      | v :: rest' => parseArgvLoop rest' s (some v) o
      | [] => .ok s none o
    else if a = "--out-dir" then
      match rest with
      | v :: rest' => parseArgvLoop rest' s b (some v)
      | [] => .ok s b none
    else if a = "--help" || a = "-h" then .helpExit
    else .unknownExit a

def parseArgv (argv : List String) : ArgScan := parseArgvLoop argv none none none

/-- The exit code of the relocator main flow, given parsed flags and whether
the final copy succeeds. -/
def copyToBinaryExit (env : RelocEnv) (copyOk : Bool)
    (sourceArg binaryArg outDirArg : Option String) : Nat :=
  let sourcePath :=
    if jsTruthy sourceArg then env.resolve (sourceArg.getD "")
    else env.defaultSource
  if !env.pathExists sourcePath then 2
  else
    match destDirResolve env binaryArg outDirArg with
    | none => 3
    | some _ => if copyOk then 0 else 4

/-! ### Auxiliary facts for the claims -/

theorem isEmpty_false_of_ne_nil {l : List Char} (h : l ≠ []) : l.isEmpty = false := by
  cases l with
  | nil => exact absurd rfl h
  | cons => rfl

/-- A string accepted by the version grammar contains no double quote, so it
can sit inside the quoted Cargo value span. -/
theorem parseVersion_quoteFree (s : String) (a b c : List Char)
    (pre : Option (List Char)) (h : parseVersion s = some (a, b, c, pre)) :
    s.data.all (fun ch => !(ch = '"')) = true := by
  rcases parseVersionCore_sound s.data a b c pre h with
    ⟨ha, _, hb, _, hc, _, hdec, hpre⟩
  have hdg : ∀ l : List Char, l.all Char.isDigit = true →
      l.all (fun ch => !(ch = '"')) = true := by
    intro l hl
    apply List.all_eq_true.mpr
    intro x hx
    have hxd := List.all_eq_true.mp hl x hx
    by_cases hq : x = '"'
    · rw [hq] at hxd; exact absurd hxd (by decide)
    · simp [hq]
  have hps : (preSuffix pre).all (fun ch => !(ch = '"')) = true := by
    cases pre with
    | none => simp [preSuffix]
    | some p =>
      have hwd := (hpre p rfl).2
      simp only [preSuffix, List.all_cons, Bool.and_eq_true]
      refine ⟨by decide, ?_⟩
      apply List.all_eq_true.mpr
      intro x hx
      have hxw := List.all_eq_true.mp hwd x hx
      by_cases hq : x = '"'
      · rw [hq] at hxw; exact absurd hxw (by decide)
      · simp [hq]
  rw [hdec]
  simp [List.all_append, hdg a ha, hdg b hb, hdg c hc, hps]

/-- A string whose characters form `digits.digits.digits` parses with no
prerelease group. -/
theorem parseVersion_of_data (s : String) (x y z : List Char)
    (hs : s.data = x ++ '.' :: (y ++ '.' :: z))
    (hx : x.all Char.isDigit = true) (hx0 : x ≠ [])
    (hy : y.all Char.isDigit = true) (hy0 : y ≠ [])
    (hz : z.all Char.isDigit = true) (hz0 : z ≠ []) :
    parseVersion s = some (x, y, z, none) := by
  unfold parseVersion
  rw [hs]
  exact parseVersionCore_canonical x y z hx (isEmpty_false_of_ne_nil hx0)
    hy (isEmpty_false_of_ne_nil hy0) hz (isEmpty_false_of_ne_nil hz0)

/-! ### The claims -/

/-- C2: stamping sets the stored build counter to the prior value plus one,
treating an absent field as zero, and the counter never decreases across
successive stamping operations, whatever the git environment provides. -/
theorem claim_C2 (g g' : Option String) (r : VersionRecord) :
    (fetchVersion g r).build = some (buildOrZero r.build + 1) ∧
    buildOrZero r.build ≤ buildOrZero (fetchVersion g r).build ∧
    buildOrZero (fetchVersion g r).build ≤
      buildOrZero (fetchVersion g' (fetchVersion g r)).build := by
  rcases hb : r.build with _ | n <;> cases g <;> cases g' <;>
    simp [fetchVersion, buildOrZero, hb]

/-- C5: for a 404 response, any other non-2xx response and a transport
error, the download handler records a warning or error line, does not fail
the process, and the error handler likewise records an error and continues. -/
theorem claim_C5 (s : Int) (bn dest msg : String) (h : isHttp2xx s = false) :
    (postinstallOnResponse s bn dest).processFailed = false ∧
    ((postinstallOnResponse s bn dest).log.1 = LogLevel.warn ∨
      (postinstallOnResponse s bn dest).log.1 = LogLevel.error) ∧
    (postinstallOnError msg).processFailed = false ∧
    (postinstallOnError msg).log.1 = LogLevel.error := by
  have hs : s ≠ 200 := by
    intro h200
    rw [h200] at h
    simp [isHttp2xx] at h
  unfold postinstallOnResponse postinstallOnError
  by_cases h404 : s = 404
  · simp [h404]
  · simp [h404, hs]

theorem claim_C5_witness :
    (postinstallOnResponse 404 "devapack-x86_64-unknown-linux-gnu" "out-tsc/bin").processFailed = false ∧
    ((postinstallOnResponse 404 "devapack-x86_64-unknown-linux-gnu" "out-tsc/bin").log.1 = LogLevel.warn ∨
      (postinstallOnResponse 404 "devapack-x86_64-unknown-linux-gnu" "out-tsc/bin").log.1 = LogLevel.error) ∧
    (postinstallOnError "connect ECONNREFUSED").processFailed = false ∧
    (postinstallOnError "connect ECONNREFUSED").log.1 = LogLevel.error :=
  claim_C5 404 "devapack-x86_64-unknown-linux-gnu" "out-tsc/bin"
    "connect ECONNREFUSED" (by decide)

/-- C6, counterexample to the claim as stated: 201 is a 2xx success status,
yet the handler skips the download and writes nothing, because the code tests
for status 200 exactly rather than for the 2xx class. -/
theorem claim_C6_counterexample :
    isHttp2xx 201 = true ∧
    (postinstallOnResponse 201 "devapack-x86_64-apple-darwin" "out-tsc/bin").written = none := by
  constructor
  · decide
  · rfl

/-- C6 as amended: the artifact is written to the destination exactly when
the response status equals 200; for 404 and every other status nothing is
written. -/
theorem claim_C6 (s : Int) (bn dest : String) :
    ((postinstallOnResponse s bn dest).written = some dest ↔ s = 200) ∧
    ((postinstallOnResponse s bn dest).written = none ↔ s ≠ 200) := by
  unfold postinstallOnResponse
  by_cases h404 : s = 404
  · subst h404
    simp
  · by_cases h200 : s = 200
    · subst h200
      simp
    · simp [h404, h200]

/-- C7: a record whose version fails the grammar makes `bumpVersion` throw
the invalid-format error, for every bump kind, before any write occurs. -/
theorem claim_C7 (t : String) (r : VersionRecord)
    (h : parseVersion r.version = none) :
    bumpVersion t r = BumpResult.invalidFormat ∧
    bumpWrite (bumpVersion t r) = none := by
  simp [bumpVersion, h, bumpWrite]

theorem claim_C7_witness :
    parseVersion "1.2" = none ∧ parseVersion "v1.2.3" = none ∧
    parseVersion "1.2.3.4" = none ∧
    bumpVersion "patch" ⟨"1.2", some 3, none⟩ = BumpResult.invalidFormat ∧
    bumpWrite (bumpVersion "major" ⟨"v1.2.3", none, none⟩) = none :=
  ⟨by decide, by decide, by decide,
    (claim_C7 "patch" ⟨"1.2", some 3, none⟩ (by decide)).1,
    (claim_C7 "major" ⟨"v1.2.3", none, none⟩ (by decide)).2⟩

/-- C1: on a record whose version matches the grammar, bumping `major`
returns the successor of the major component followed by `.0.0`, bumping
`minor` keeps the major component and returns the successor of the minor
component followed by `.0`, bumping `patch` keeps major and minor and
returns the successor of the patch component; and every successful bump
returns a version that parses with no prerelease suffix, whether or not the
input carried one. -/
theorem claim_C1 (r : VersionRecord) (a b c : List Char) (pre : Option (List Char))
    (h : parseVersion r.version = some (a, b, c, pre)) :
    bumpVersion "major" r =
      BumpResult.ok { r with version := natRepr (digitsToNat a + 1) ++ ".0.0" }
        (natRepr (digitsToNat a + 1) ++ ".0.0") ∧
    bumpVersion "minor" r =
      BumpResult.ok
        { r with version := String.mk a ++ "." ++ natRepr (digitsToNat b + 1) ++ ".0" }
        (String.mk a ++ "." ++ natRepr (digitsToNat b + 1) ++ ".0") ∧
    bumpVersion "patch" r =
      BumpResult.ok
        { r with version :=
            String.mk a ++ "." ++ String.mk b ++ "." ++ natRepr (digitsToNat c + 1) }
        (String.mk a ++ "." ++ String.mk b ++ "." ++ natRepr (digitsToNat c + 1)) ∧
    ∀ t r' nv, bumpVersion t r = BumpResult.ok r' nv →
      ∃ a' b' c', parseVersion nv = some (a', b', c', none) := by
  rcases parseVersionCore_sound r.version.data a b c pre h with
    ⟨ha, ha0, hb, hb0, hc, hc0, _, _⟩
  refine ⟨?_, ?_, ?_, ?_⟩
  · simp only [bumpVersion, h]
    rfl
  · simp only [bumpVersion, h]
    rfl
  · simp only [bumpVersion, h]
    rfl
  · intro t r' nv hok
    simp only [bumpVersion, h] at hok
    by_cases h1 : t = ""
    · rw [if_pos h1] at hok
      simp at hok
    rw [if_neg h1] at hok
    by_cases h2 : t = "major"
    · rw [if_pos h2] at hok
      simp only [BumpResult.ok.injEq] at hok
      refine ⟨natToDigits (digitsToNat a + 1), ['0'], ['0'], ?_⟩
      rw [← hok.2]
      apply parseVersion_of_data _ _ _ _ ?_
        (natToDigits_all _) (natToDigits_ne_nil _) (by decide) (by decide)
        (by decide) (by decide)
      simp only [string_data_append]
      rfl
    rw [if_neg h2] at hok
    by_cases h3 : t = "minor"
    · rw [if_pos h3] at hok
      simp only [BumpResult.ok.injEq] at hok
      refine ⟨a, natToDigits (digitsToNat b + 1), ['0'], ?_⟩
      rw [← hok.2]
      apply parseVersion_of_data _ _ _ _ ?_ ha ha0
        (natToDigits_all _) (natToDigits_ne_nil _) (by decide) (by decide)
      simp only [string_data_append]
      simp [show ("." : String).data = ['.'] from rfl,
        show (".0" : String).data = ['.', '0'] from rfl, natRepr]
    rw [if_neg h3] at hok
    by_cases h4 : t = "patch"
    · rw [if_pos h4] at hok
      simp only [BumpResult.ok.injEq] at hok
      refine ⟨a, b, natToDigits (digitsToNat c + 1), ?_⟩
      rw [← hok.2]
      apply parseVersion_of_data _ _ _ _ ?_ ha ha0 hb hb0
        (natToDigits_all _) (natToDigits_ne_nil _)
      simp only [string_data_append]
      simp [show ("." : String).data = ['.'] from rfl, natRepr]
    rw [if_neg h4] at hok
    simp at hok

theorem claim_C1_witness :
    bumpVersion "minor" ⟨"1.2.3-beta.1", some 5, none⟩ =
      BumpResult.ok ⟨"1.3.0", some 5, none⟩ "1.3.0" := by
  have h := (claim_C1 ⟨"1.2.3-beta.1", some 5, none⟩ ['1'] ['2'] ['3']
    (some ['b', 'e', 't', 'a', '.', '1']) (by decide)).2.1
  exact h.trans (by decide)

/-- C3: for a grammar-valid version string, synchronizing writes it verbatim
into the structured manifest's version field, and into the value span of the
first `version = "..."` assignment of the text manifest (which is assumed to
contain one; C10 covers its absence). -/
theorem claim_C3 (r : VersionRecord) (m : ProjectManifests)
    (a b c : List Char) (pre : Option (List Char))
    (hv : parseVersion r.version = some (a, b, c, pre))
    (pre0 g1 val rest : List Char)
    (hm : findFirstMatch m.cargo = some (pre0, g1, val, rest)) :
    (syncVersion r.version m).pkg.version = r.version ∧
    firstVersionValue (syncVersion r.version m).cargo = some r.version.data := by
  refine ⟨rfl, ?_⟩
  exact firstVersionValue_replace r.version.data m.cargo pre0 g1 val rest hm
    (parseVersion_quoteFree r.version a b c pre hv)

theorem claim_C3_witness :
    (syncVersion "2.0.0"
      ⟨⟨"0.1.0", []⟩, ("name = \"devapack\"\nversion = \"0.1.0\"\n").data⟩).pkg.version
        = "2.0.0" ∧
    firstVersionValue (syncVersion "2.0.0"
      ⟨⟨"0.1.0", []⟩, ("name = \"devapack\"\nversion = \"0.1.0\"\n").data⟩).cargo
        = some ("2.0.0" : String).data :=
  claim_C3 ⟨"2.0.0", none, none⟩
    ⟨⟨"0.1.0", []⟩, ("name = \"devapack\"\nversion = \"0.1.0\"\n").data⟩
    ['2'] ['0'] ['0'] none (by decide)
    ("name = \"devapack\"\n").data ("version = \"").data ("0.1.0").data ['\n']
    (by decide)

/-- C4: the pattern substitution touches only the value span of the first
`version = "..."` assignment: the document decomposes as prefix, capture
group, value span, closing quote and suffix, and the substituted document is
the same decomposition with only the value span replaced. -/
theorem claim_C4 (v : String) (cargo pre g1 val rest : List Char)
    (h : findFirstMatch cargo = some (pre, g1, val, rest)) :
    cargo = pre ++ g1 ++ val ++ '"' :: rest ∧
    replaceVersionValue v.data cargo = pre ++ g1 ++ v.data ++ '"' :: rest := by
  rcases findFirstMatch_sound v.data cargo pre g1 val rest h with ⟨h1, _, _, h4⟩
  exact ⟨h1, h4⟩

theorem claim_C4_witness :
    ("name = \"devapack\"\nversion = \"0.1.0\"\n").data =
      ("name = \"devapack\"\n").data ++ ("version = \"").data ++
        ("0.1.0").data ++ '"' :: ['\n'] ∧
    replaceVersionValue ("2.0.0" : String).data
        ("name = \"devapack\"\nversion = \"0.1.0\"\n").data =
      ("name = \"devapack\"\n").data ++ ("version = \"").data ++
        ("2.0.0" : String).data ++ '"' :: ['\n'] :=
  claim_C4 "2.0.0" ("name = \"devapack\"\nversion = \"0.1.0\"\n").data
    ("name = \"devapack\"\n").data ("version = \"").data ("0.1.0").data ['\n']
    (by decide)

/-- C10: when the text manifest contains no `version = "..."` assignment,
synchronization writes it back byte for byte unchanged and completes
normally (the structured manifest still gets the version), leaving no
readable assignment value in the text manifest. -/
theorem claim_C10 (r : VersionRecord) (m : ProjectManifests)
    (h : findFirstMatch m.cargo = none) :
    (syncVersion r.version m).cargo = m.cargo ∧
    firstVersionValue (syncVersion r.version m).cargo = none ∧
    (syncVersion r.version m).pkg.version = r.version := by
  have h1 : replaceVersionValue r.version.data m.cargo = m.cargo :=
    replaceVersionValue_id r.version.data m.cargo h
  refine ⟨h1, ?_, rfl⟩
  show firstVersionValue (replaceVersionValue r.version.data m.cargo) = none
  rw [h1]
  exact firstVersionValue_of_none m.cargo h

theorem claim_C10_witness :
    (syncVersion "2.0.0" ⟨⟨"0.1.0", []⟩, ("name = \"devapack\"\n").data⟩).cargo =
      ("name = \"devapack\"\n").data ∧
    firstVersionValue
      (syncVersion "2.0.0" ⟨⟨"0.1.0", []⟩, ("name = \"devapack\"\n").data⟩).cargo = none ∧
    (syncVersion "2.0.0" ⟨⟨"0.1.0", []⟩, ("name = \"devapack\"\n").data⟩).pkg.version =
      "2.0.0" :=
  claim_C10 ⟨"2.0.0", none, none⟩ ⟨⟨"0.1.0", []⟩, ("name = \"devapack\"\n").data⟩
    (by decide)

/-- C8: destination resolution for a (nonempty) `--binary` path: the parent
directory when the resolved path exists and is a regular file; otherwise the
parent directory when the path carries a nonempty extension; otherwise the
path itself as a directory; and with neither `--binary` nor `--out-dir`, the
current working directory. -/
theorem claim_C8 (env : RelocEnv) (b : String) (o : Option String) (hb : b ≠ "") :
    ((env.pathExists (env.resolve b) && env.isFile (env.resolve b)) = true →
      destDirResolve env (some b) o = some (posixDirname (env.resolve b))) ∧
    ((env.pathExists (env.resolve b) && env.isFile (env.resolve b)) = false →
      (posixExtname (env.resolve b)).isEmpty = false →
      destDirResolve env (some b) o = some (posixDirname (env.resolve b))) ∧
    ((env.pathExists (env.resolve b) && env.isFile (env.resolve b)) = false →
      (posixExtname (env.resolve b)).isEmpty = true →
      destDirResolve env (some b) o = some (env.resolve b)) ∧
    destDirResolve env none none = some env.cwd := by
  have hbe : b.isEmpty = false := by
    by_cases he : b.isEmpty = true
    · exact absurd ((String.isEmpty_iff b).mp he) hb
    · simpa using he
  refine ⟨?_, ?_, ?_, ?_⟩
  · intro hex
    simp [destDirResolve, jsTruthy, hbe, hex]
  · intro hex hext
    simp [destDirResolve, jsTruthy, hbe, hex, hext]
  · intro hex hext
    simp [destDirResolve, jsTruthy, hbe, hex, hext]
  · simp [destDirResolve, jsTruthy]

theorem claim_C8_witness :
    destDirResolve
      ⟨fun s => s, "/work", fun p => decide (p = "/opt/app/bin/tool"),
        fun p => decide (p = "/opt/app/bin/tool"), "/repo/project-version.json"⟩
      (some "/opt/app/bin/tool") none = some "/opt/app/bin" := by
  have h := (claim_C8
    ⟨fun s => s, "/work", fun p => decide (p = "/opt/app/bin/tool"),
      fun p => decide (p = "/opt/app/bin/tool"), "/repo/project-version.json"⟩
    "/opt/app/bin/tool" none (by decide)).1 (by decide)
  exact h.trans (by decide)

/-- C9: for every argument vector the flag loop accepts, destination
resolution yields a directory (the no-flag branch falls back to the working
directory), so the exit-code-3 branch for an unresolved destination is
unreachable. -/
theorem claim_C9 (env : RelocEnv) (copyOk : Bool) (argv : List String)
    (s b o : Option String) (_h : parseArgv argv = ArgScan.ok s b o) :
    (destDirResolve env b o).isSome = true ∧
    copyToBinaryExit env copyOk s b o ≠ 3 := by
  have hsome : (destDirResolve env b o).isSome = true := by
    unfold destDirResolve
    by_cases h1 : jsTruthy b
    · simp only [h1, if_true]
      split_ifs <;> simp
    · simp only [h1, Bool.false_eq_true, if_false]
      split_ifs <;> simp
  refine ⟨hsome, ?_⟩
  rcases Option.isSome_iff_exists.mp hsome with ⟨d, hd⟩
  unfold copyToBinaryExit
  rw [hd]
  split_ifs <;> simp <;> split_ifs <;> simp

theorem claim_C9_witness :
    (destDirResolve
      ⟨fun s => s, "/work", fun _ => true, fun _ => true, "/repo/project-version.json"⟩
      (some "/a/b.txt") none).isSome = true ∧
    copyToBinaryExit
      ⟨fun s => s, "/work", fun _ => true, fun _ => true, "/repo/project-version.json"⟩
      true none (some "/a/b.txt") none ≠ 3 :=
  claim_C9
    ⟨fun s => s, "/work", fun _ => true, fun _ => true, "/repo/project-version.json"⟩
    true ["--binary", "/a/b.txt"] none (some "/a/b.txt") none (by decide)

end Devapack
